import Mathlib

/-!
Verification of the Source definition compiler of imgbrd-grabber
(src/lib/src/models/source.cpp), against its natural-language
specification.

The generic structured document produced by the script runtime is
modelled as a tagged tree (`JSValue`) with the QJSValue accessor
semantics used by the code (`property`, `toString`, `toInt`, `toUInt`,
`isUndefined`, `isObject`).  The constructor's field builder, auth
builder, auth-map insertion loop, site-list parsing, and the
`addSite`/`removeSite`/`getApi` operations are embedded as executable
functions, and the specified properties are proved or refuted below.
-/

/-- The generic document tree: the shape of a `QJSValue` as observed by
`source.cpp` (scalars, objects as ordered key/value lists, arrays). -/
inductive JSValue where
  | undefined : JSValue
  | null : JSValue
  | bool : Bool → JSValue
  | num : Int → JSValue
  | str : String → JSValue
  | obj : List (String × JSValue) → JSValue
  | arr : List JSValue → JSValue

/-- Models `QJSValue::isUndefined`. -/
def JSValue.isUndefined : JSValue → Bool
  | .undefined => true
  | _ => false

/-- Models `QJSValue::isObject`: true for objects and for arrays (arrays are
objects in ECMAScript). -/
def JSValue.isObject : JSValue → Bool
  | .obj _ => true
  | .arr _ => true
  | _ => false

/-- Accumulating decimal digit parser. -/
def parseDigitsAux : List Char → Nat → Option Nat
  | [], acc => some acc
  | c :: cs, acc =>
    if c.isDigit then parseDigitsAux cs (acc * 10 + (c.toNat - 48)) else none

/-- Parse a plain decimal digit string. -/
def parseDigits : List Char → Option Nat
  | [] => none
  | cs => parseDigitsAux cs 0

/-- Best-effort integer parse of a string (optional sign then digits),
modelling the integral fragment of ECMAScript `ToNumber`. -/
def parseInt? : List Char → Option Int
  | '-' :: cs => match parseDigits cs with
    | some n => some (-(n : Int))
    | none => none
  | cs => match parseDigits cs with
    | some n => some (n : Int)
    | none => none

mutual

/-- Models `QJSValue::toString`: ECMAScript `ToString` on the modelled values.
`undefined` renders as the string "undefined" — the behaviour the code
relies on `isUndefined` guards to avoid. -/
def JSValue.toString : JSValue → String
  | .undefined => "undefined"
  | .null => "null"
  | .bool true => "true"
  | .bool false => "false"
  | .num n => ToString.toString n
  | .str s => s
  | .obj _ => "[object Object]"
  | .arr elems => String.intercalate "," (JSValue.elemStrings elems)

/-- Array element rendering for `Array.prototype.join`: `undefined` and
`null` elements render as the empty string. -/
def JSValue.elemStrings : List JSValue → List String
  | [] => []
  | .undefined :: rest => "" :: JSValue.elemStrings rest
  | .null :: rest => "" :: JSValue.elemStrings rest
  | v :: rest => JSValue.toString v :: JSValue.elemStrings rest

end

/-- Models `QJSValue::property(name)`: named property lookup; `undefined` when
the property is absent or the receiver is not an object.  On arrays,
"length" and decimal indices resolve as in ECMAScript. -/
def JSValue.property : JSValue → String → JSValue
  | .obj props, name =>
    match props.find? (fun p => p.1 == name) with
    | some p => p.2
    | none => .undefined
  | .arr elems, name =>
    if name == "length" then .num elems.length
    else match parseDigits name.data with
      | some i => elems.getD i .undefined
      | none => .undefined
  | _, _ => .undefined

/-- Models `QJSValue::property(quint32 arrayIndex)`: indexed lookup, used by
the field loop. -/
def JSValue.propertyIdx : JSValue → Nat → JSValue
  | .arr elems, i => elems.getD i .undefined
  | v, i => v.property (ToString.toString i)

/-- Wrap an integer into the signed 32-bit range (ECMAScript `ToInt32`
on integral values). -/
def wrap32 (n : Int) : Int := (n + 2 ^ 31) % 2 ^ 32 - 2 ^ 31

/-- Models `QJSValue::toInt`: ECMAScript `ToInt32`, best-effort integral
conversion defaulting to 0. -/
def JSValue.toInt : JSValue → Int
  | .num n => wrap32 n
  | .bool b => if b then 1 else 0
  | .str s =>
    match parseInt? s.data with
    | some n => wrap32 n
    | none => 0
  | _ => 0

/-- Models `QJSValue::toUInt`: ECMAScript `ToUint32`, best-effort conversion
defaulting to 0. -/
def JSValue.toUInt : JSValue → Nat
  | .num n => (n % 2 ^ 32).toNat
  | .bool b => if b then 1 else 0
  | .str s =>
    match parseInt? s.data with
    | some n => (n % 2 ^ 32).toNat
    | none => 0
  | _ => 0

/-- The own properties a `QJSValueIterator` walks, in document order
(used for the `apis` and `auth` maps; in `model.js` both are plain
objects). -/
def JSValue.objProps : JSValue → List (String × JSValue)
  | .obj props => props
  | .arr elems => elems.enum.map (fun p => (ToString.toString p.1, p.2))
  | _ => []

/-- Hash algorithm selected for an `AuthHashField`
(`QCryptographicHash::Sha1` / `Md5`). -/
inductive HashAlgorithm where
  | Sha1 : HashAlgorithm
  | Md5 : HashAlgorithm
deriving DecidableEq

/-- Models `AuthField::FieldType` (`Text` / `Password`). -/
inductive FieldType where
  | Text : FieldType
  | Password : FieldType
deriving DecidableEq

/-- The `AuthField` family: `AuthField` (text), `AuthConstField`,
`AuthHashField`. -/
inductive AuthField where
  | textField : (id : String) → (key : String) → (type : FieldType) → (defaultValue : String) → AuthField
  | constField : (key : String) → (value : String) → AuthField
  | hashField : (key : String) → (algorithm : HashAlgorithm) → (salt : String) → AuthField
deriving DecidableEq

/-- Algorithm of a hash field, `none` for the other variants. -/
def AuthField.algorithm? : AuthField → Option HashAlgorithm
  | .hashField _ algo _ => some algo
  | _ => none

/-- Whether the field is an `AuthHashField`. -/
def AuthField.isHashField : AuthField → Bool
  | .hashField _ _ _ => true
  | _ => false

/-- FieldSpec Builder: the field construction loop body of
`Source::Source` (source.cpp lines 128-144), building one `AuthField`
from one field description node. -/
def buildAuthField (field : JSValue) : AuthField :=
  let fid : String := if !(field.property "id").isUndefined then (field.property "id").toString else ""
  let key : String := if !(field.property "key").isUndefined then (field.property "key").toString else ""
  let ftype : String := (field.property "type").toString
  if ftype = "hash" then
    let algo := if (field.property "hash").toString = "sha1" then HashAlgorithm.Sha1 else HashAlgorithm.Md5
    AuthField.hashField key algo ((field.property "salt").toString)
  else if ftype = "const" then
    AuthField.constField key ((field.property "value").toString)
  else
    let fdefault : String := if !(field.property "def").isUndefined then (field.property "def").toString else ""
    AuthField.textField fid key (if ftype = "password" then FieldType.Password else FieldType.Text) fdefault

/-- Modelled from the spec: `jsToStringList` (js-helpers, not under
src/) converts a JS array value to the ordered list of its elements
rendered as strings; non-arrays yield the empty list. -/
def jsToStringList : JSValue → List String
  | .arr elems => elems.map JSValue.toString
  | _ => []

/-- The `Auth` family: `OAuth2Auth`, `OAuth1Auth`, `HttpBasicAuth`,
`HttpAuth`, `UrlAuth`. -/
inductive Auth where
  | oauth2 : (type : String) → (node : JSValue) → Auth
  | oauth1 : (type : String) → (node : JSValue) → Auth
  | httpBasic : (type : String) → (maxPage : Int) → (passwordType : String) → Auth
  | http : (type : String) → (url : String) → (fields : List AuthField) → (cookie : String) →
      (redirectUrl : String) → (csrfUrl : String) → (csrfFields : List String) → Auth
  | url : (type : String) → (fields : List AuthField) → (maxPage : Int) → Auth

/-- The `checkType` resolved at the top of the auth loop (source.cpp
lines 112-113): `check.type` when `check` is an object, else empty. -/
def checkTypeOf (auth : JSValue) : String :=
  if (auth.property "check").isObject then ((auth.property "check").property "type").toString else ""

/-- The page cap read from `check.value` when `checkType` is
"max_page", else 0 (source.cpp lines 120 and 158). -/
def maxPageOf (auth : JSValue) : Int :=
  if checkTypeOf auth = "max_page" then ((auth.property "check").property "value").toInt else 0

/-- The ordered `AuthField` list built from `auth.fields` (source.cpp
lines 124-145): indices 0 .. length-1 of the `fields` property, where
`length` is the `ToUint32` of its `length` property. -/
def fieldsOf (auth : JSValue) : List AuthField :=
  (List.range ((auth.property "fields").property "length").toUInt).map
    (fun i => buildAuthField ((auth.property "fields").propertyIdx i))

/-- AuthStrategy Builder: the auth loop body of `Source::Source`
(source.cpp lines 109-161), building one `Auth` from one
authentication-scheme node.  `none` models `ret == nullptr` (which in
fact never occurs: every branch assigns a strategy). -/
def buildAuth (auth : JSValue) : Option Auth :=
  if (auth.property "type").toString = "oauth2" then
    some (Auth.oauth2 ((auth.property "type").toString) auth)
  else if (auth.property "type").toString = "oauth1" then
    some (Auth.oauth1 ((auth.property "type").toString) auth)
  else if (auth.property "type").toString = "http_basic" then
    some (Auth.httpBasic ((auth.property "type").toString) (maxPageOf auth)
      ((auth.property "passwordType").toString))
  else if (auth.property "type").toString = "get" ∨ (auth.property "type").toString = "post" then
    some (Auth.http ((auth.property "type").toString) ((auth.property "url").toString) (fieldsOf auth)
      (if checkTypeOf auth = "cookie" then ((auth.property "check").property "key").toString else "")
      (if checkTypeOf auth = "redirect" then ((auth.property "check").property "url").toString else "")
      (if (auth.property "csrf").isObject then ((auth.property "csrf").property "url").toString else "")
      (if (auth.property "csrf").isObject then jsToStringList ((auth.property "csrf").property "fields") else []))
  else
    some (Auth.url ((auth.property "type").toString) (fieldsOf auth) (maxPageOf auth))

/-- Models `QMap<QString, Auth*>::insert`: replaces the value when the key is
already present, appends otherwise (modelled on the association list
underlying `m_auths`). -/
def qmapInsert : List (String × Auth) → String → Auth → List (String × Auth)
  | [], k, v => [(k, v)]
  | p :: rest, k, v => if p.1 = k then (k, v) :: rest else p :: qmapInsert rest k v

/-- Models `QMap` lookup by key: the value stored under `k`, if any. -/
def lookupAuth (k : String) : List (String × Auth) → Option Auth
  | [] => none
  | p :: rest => if p.1 = k then some p.2 else lookupAuth k rest

/-- The auth-map construction loop of `Source::Source` (source.cpp
lines 102-166): build each scheme node and insert non-null results
under their scheme id. -/
def insertAuths : List (String × JSValue) → List (String × Auth) → List (String × Auth)
  | [], m => m
  | (id, auth) :: rest, m =>
    match buildAuth auth with
    | some ret => insertAuths rest (qmapInsert m id ret)
    | none => insertAuths rest m

/-- Models `TagNameFormat::CaseFormat`. -/
inductive CaseFormat where
  | Lower : CaseFormat
  | UpperFirst : CaseFormat
  | Upper : CaseFormat
  | Caps : CaseFormat
deriving DecidableEq

/-- Models `TagNameFormat`. -/
structure TagNameFormat where
  caseFormat : CaseFormat
  wordSeparator : String
deriving DecidableEq

/-- The `caseAssoc` lookup of `Source::Source` (source.cpp lines
59-65), defaulting to `Lower` on a miss. -/
def caseAssoc (s : String) : CaseFormat :=
  if s = "lower" then CaseFormat.Lower
  else if s = "upper_first" then CaseFormat.UpperFirst
  else if s = "upper" then CaseFormat.Upper
  else if s = "caps" then CaseFormat.Caps
  else CaseFormat.Lower

/-- An `Api` as this core observes it: a `JavascriptApi` carrying the
key it was constructed under (its name). -/
structure Api where
  name : String
deriving DecidableEq

/-- Log levels of `Logger`. -/
inductive LogLevel where
  | Debug : LogLevel
  | Info : LogLevel
  | Warning : LogLevel
  | Error : LogLevel
deriving DecidableEq

/-- The log records `Source::Source` can emit, carrying the data
interpolated into each message. -/
inductive LogEntry where
  | usingJsModel : (diskName : String) → LogEntry
  | uncaughtException : (lineNumber : Int) → (message : String) → LogEntry
  | noValidSource : (name : String) → LogEntry
  | jsModelNotFound : (diskName : String) → LogEntry
  | noSite : (name : String) → LogEntry
deriving DecidableEq

/-- The level each record is logged at (the bare `log(...)` calls use
the logger's default level, `Info`). -/
def LogEntry.level : LogEntry → LogLevel
  | .usingJsModel _ => LogLevel.Debug
  | .uncaughtException _ _ => LogLevel.Error
  | .noValidSource _ => LogLevel.Info
  | .jsModelNotFound _ => LogLevel.Warning
  | .noSite _ => LogLevel.Debug

/-- Unicode whitespace per `QChar::isSpace` (what `QString::trimmed`
would strip): space, horizontal and vertical tab, line feed, form
feed, carriage return, next line and no-break space.  The code's line
loops do NOT apply this — `readLine().trimmed()` is
`QByteArray::trimmed`, which strips ASCII whitespace only
(`isAsciiSpaceByte` below); this predicate states the whitespace
notion the specification's words use. -/
def isQtSpace (c : Char) : Bool :=
  c == ' ' || c == '\t' || c == '\n' || c == '\x0b' || c == '\x0c' || c == '\r' ||
    c == '\x85' || c == '\xa0'

/-- ASCII whitespace as stripped by `QByteArray::trimmed` (the
`trimmed()` actually called on the `readLine()` bytes at lines 178 and
195): tab, line feed, vertical tab, form feed, carriage return,
space. -/
def isAsciiSpaceByte (b : Nat) : Bool :=
  b == 9 || b == 10 || b == 11 || b == 12 || b == 13 || b == 32

/-- The ASCII-whitespace predicate on decoded characters. -/
def isAsciiSpaceChar (c : Char) : Bool :=
  isAsciiSpaceByte c.toNat

/-- Generic trimming: drop elements satisfying `p` from the start,
then from the end (the algorithm of `QByteArray::trimmed`). -/
def trimmedBy {α : Type} (p : α → Bool) (l : List α) : List α :=
  (((l.dropWhile p).reverse.dropWhile p)).reverse

/-- Whether a byte is a UTF-8 continuation byte (0x80-0xBF). -/
def isCont (b : Nat) : Bool := 0x80 ≤ b && b < 0xC0

/-- Whether a code point may become a `Char` (not a surrogate, below
0x110000). -/
def validCp (cp : Nat) : Bool :=
  decide (cp < 0xD800) || (decide (0xDFFF < cp) && decide (cp < 0x110000))

/-- One byte processed in the initial decoder state: an ASCII byte
becomes its character, a multi-byte lead opens a pending sequence
(continuations still needed, accumulated bits, minimal legal code
point for the overlong check), anything else becomes U+FFFD. -/
def utf8Step1 (b : Nat) : List Char × Option (Nat × Nat × Nat) :=
  if b < 0x80 then ([Char.ofNat b], none)
  else if 0xC0 ≤ b && b < 0xE0 then ([], some (1, b - 0xC0, 0x80))
  else if 0xE0 ≤ b && b < 0xF0 then ([], some (2, b - 0xE0, 0x800))
  else if 0xF0 ≤ b && b < 0xF8 then ([], some (3, b - 0xF0, 0x10000))
  else ([Char.ofNat 0xFFFD], none)

/-- The UTF-8 decoding loop: a pending multi-byte sequence is
completed by continuation bytes (rejecting overlong forms, surrogates
and out-of-range code points), aborted to U+FFFD by anything else, and
a truncated trailing sequence yields one U+FFFD.  The exact
replacement-character granularity for malformed input is approximate;
no theorem below depends on it. -/
def utf8Run : Option (Nat × Nat × Nat) → List Nat → List Char
  | none, [] => []
  | some _, [] => [Char.ofNat 0xFFFD]
  | none, b :: bs => (utf8Step1 b).1 ++ utf8Run (utf8Step1 b).2 bs
  | some (need, acc, mn), b :: bs =>
    if isCont b then
      if need ≤ 1 then
        (if mn ≤ acc * 64 + (b - 0x80) && validCp (acc * 64 + (b - 0x80)) then
          Char.ofNat (acc * 64 + (b - 0x80))
        else Char.ofNat 0xFFFD) :: utf8Run none bs
      else utf8Run (some (need - 1, acc * 64 + (b - 0x80), mn)) bs
    else Char.ofNat 0xFFFD :: ((utf8Step1 b).1 ++ utf8Run (utf8Step1 b).2 bs)

/-- Models `QString::fromUtf8` (the implicit `QByteArray` → `QString`
conversion applied to file bytes): decode UTF-8, replacing malformed
input with U+FFFD. -/
def utf8Decode (bs : List Nat) : List Char := utf8Run none bs

/-- Models `QString::toLatin1` (line 229/247 write encoding): each
character at most U+00FF becomes its byte, anything above becomes
the byte of the question mark. -/
def latin1Encode (l : List Char) : List Nat :=
  l.map (fun c => if c.toNat ≤ 0xFF then c.toNat else 0x3F)

/-- A string whose characters are all ASCII. -/
abbrev asciiLine (l : List Char) : Prop := ∀ c ∈ l, c.toNat < 128

/-- A byte sequence whose bytes are all ASCII. -/
abbrev asciiBytes (raw : List Nat) : Prop := ∀ b ∈ raw, b < 128

/-- Split a character list on a separator, keeping empty pieces
(`QString::split` with `KeepEmptyParts`). -/
def splitOn {α : Type} [DecidableEq α] (sep : α) : List α → List (List α)
  | [] => [[]]
  | c :: cs =>
    if c = sep then [] :: splitOn sep cs
    else
      match splitOn sep cs with
      | [] => [[c]]
      | p :: ps => (c :: p) :: ps

/-- Models `QStringList::join(sep)`: concatenate with the separator between
consecutive entries. -/
def joinWith (sep : List Char) : List (List Char) → List Char
  | [] => []
  | [l] => l
  | l :: l2 :: ls => l ++ sep ++ joinWith sep (l2 :: ls)

/-- The line-reading loop shared by the `sites.txt` and
`supported.txt` sections of `Source::Source` (lines 175-201): read
each byte line (`readLine`), strip ASCII whitespace from its ends
(`QByteArray::trimmed`), decode it to a string (the implicit UTF-8
conversion), and skip lines that are empty. -/
def readTrimmedLines (content : List Nat) : List (List Char) :=
  ((splitOn 10 content).map (fun l => utf8Decode (trimmedBy isAsciiSpaceByte l))).filter
    (fun l => !l.isEmpty)

/-- Models `rawSites.replace("\r", "").split("\n", Qt::SkipEmptyParts)`: the
parse step of `addSite`/`removeSite` (lines 223 and 243). -/
def parseSites (raw : List Char) : List (List Char) :=
  (splitOn '\n' (raw.filter (fun c => c != '\r'))).filter (fun l => !l.isEmpty)

/-- Models `QStringList::removeDuplicates`: keep the first occurrence of each
entry, preserving order (`seen` accumulates the entries kept so far). -/
def removeDupsAux : List (List Char) → List (List Char) → List (List Char)
  | [], _ => []
  | x :: xs, seen => if x ∈ seen then removeDupsAux xs seen else x :: removeDupsAux xs (x :: seen)

/-- Models `QStringList::removeDuplicates` on a whole list. -/
def removeDuplicates (l : List (List Char)) : List (List Char) :=
  removeDupsAux l []

/-- Models `QStringList::sort`: lexicographic sort of the lines. -/
def sortSites (l : List (List Char)) : List (List Char) :=
  List.insertionSort (fun a b : List Char => a ≤ b) l

/-- The `sites` list `Source::addSite` builds before writing (lines
219-226): decode the file bytes to a string (UTF-8), parse, append the
url, deduplicate, sort. -/
def addSiteLines (raw : List Nat) (url : List Char) : List (List Char) :=
  sortSites (removeDuplicates (parseSites (utf8Decode raw) ++ [url]))

/-- Models `Source::addSite` (lines 212-230) as a transform of the
persisted `sites.txt` bytes: decode (UTF-8), parse, append the url,
deduplicate, sort, join with "\r\n" and encode with `toLatin1` (line
229).  (The surrounding I/O returns false on read/write failure and
leaves the file untouched; the pure transform is what a successful
call writes back.) -/
def addSite (raw : List Nat) (url : List Char) : List Nat :=
  latin1Encode (joinWith ['\r', '\n'] (addSiteLines raw url))

/-- The `sites` list `Source::removeSite` builds before writing (lines
239-244): decode the file bytes (UTF-8), parse, remove all occurrences
of the url. -/
def removeSiteLines (raw : List Nat) (url : List Char) : List (List Char) :=
  (parseSites (utf8Decode raw)).filter (fun l => l ≠ url)

/-- Models `Source::removeSite` (lines 232-248) as a transform of the
persisted `sites.txt` bytes: decode (UTF-8), parse, remove all
occurrences of the url, join with "\r\n" and encode with `toLatin1`
(line 247). -/
def removeSite (raw : List Nat) (url : List Char) : List Nat :=
  latin1Encode (joinWith ['\r', '\n'] (removeSiteLines raw url))

/-- The result of evaluating the wrapped `model.js` text in the shared
engine: the resulting `QJSValue` together with `isError`. -/
structure EvalOutcome where
  value : JSValue
  isError : Bool

/-- The observable state a `Source` holds after construction. -/
structure SourceState where
  name : String
  additionalTokens : List String
  apis : List Api
  tagNameFormat : TagNameFormat
  auths : List (String × Auth)
  sites : List (List Char)
  supportedSites : List (List Char)
  log : List LogEntry

/-- Models `Source::Source` (lines 55-202) over its external inputs:
`modelJs` is the outcome the script runtime returned for `model.js`
(`none` when the file is missing or unreadable), `sitesContent` and
`supportedContent` are the raw contents of `sites.txt` and
`supported.txt` (`none` when unreadable).  Member fields start from
their default-constructed (empty) values. -/
def Source.construct (diskName : String) (modelJs : Option EvalOutcome)
    (sitesContent supportedContent : Option (List Nat)) : SourceState :=
  let s0 : SourceState :=
    ⟨"", [], [], ⟨CaseFormat.Lower, ""⟩, [], [], [], []⟩
  let s1 : SourceState :=
    match modelJs with
    | some o =>
      if o.isError then
        { s0 with log := [LogEntry.usingJsModel diskName,
            LogEntry.uncaughtException ((o.value.property "lineNumber").toInt) (o.value.toString)] }
      else
        let apis := (o.value.property "apis").objProps.map (fun p => Api.mk p.1)
        { s0 with
          name := (o.value.property "name").toString
          additionalTokens := jsToStringList (o.value.property "tokens")
          apis := apis
          tagNameFormat :=
            if !(o.value.property "tagFormat").isUndefined then
              TagNameFormat.mk (caseAssoc (((o.value.property "tagFormat").property "case").toString))
                (((o.value.property "tagFormat").property "wordSeparator").toString)
            else s0.tagNameFormat
          auths := insertAuths (o.value.property "auth").objProps []
          log := [LogEntry.usingJsModel diskName] ++
            (if apis.isEmpty then [LogEntry.noValidSource ((o.value.property "name").toString)] else []) }
    | none => { s0 with log := [LogEntry.jsModelNotFound diskName] }
  let sites := match sitesContent with
    | some c => readTrimmedLines c
    | none => []
  { s1 with
    sites := sites
    supportedSites := match supportedContent with
      | some c => readTrimmedLines c
      | none => []
    log := s1.log ++ (if sites.isEmpty then [LogEntry.noSite s1.name] else []) }

/-- Models `Source::getApi` (lines 261-269): linear scan of `m_apis`,
returning the first `Api` whose name matches, else null. -/
def getApi : List Api → String → Option Api
  | [], _ => none
  | a :: rest, name => if a.name = name then some a else getApi rest name

/-- The operations relevant to serialization of the shared script
runtime, in the order a code path performs them. -/
inductive RuntimeStep where
  | lockJsEngineMutex : RuntimeStep
  | unlockJsEngineMutex : RuntimeStep
  | evaluateDocument : RuntimeStep
  | scriptedApiCall : RuntimeStep
deriving DecidableEq

/-- Whether a step is a call into the shared runtime. -/
def RuntimeStep.isRuntimeCall : RuntimeStep → Bool
  | .evaluateDocument => true
  | .scriptedApiCall => true
  | _ => false

/-- Number of unmatched acquisitions of `jsEngineMutex` after running a
step sequence. -/
def lockDepth : List RuntimeStep → Nat
  | [] => 0
  | .lockJsEngineMutex :: rest => lockDepth rest + 1
  | .unlockJsEngineMutex :: rest => lockDepth rest - 1
  | _ :: rest => lockDepth rest

/-- Whether `jsEngineMutex` is held when step `i` of the trace runs. -/
def lockedAt (trace : List RuntimeStep) (i : Nat) : Bool :=
  decide (0 < lockDepth ((trace.take i).reverse))

/-- Every call into the shared runtime in the trace runs while
`jsEngineMutex` is held. -/
def serialized (trace : List RuntimeStep) : Prop :=
  ∀ i < trace.length,
    (trace.getD i RuntimeStep.lockJsEngineMutex).isRuntimeCall = true → lockedAt trace i = true

/-- The runtime interactions of `Source::Source` (lines 74-75): the
constructor fetches the shared engine and calls `evaluate` on it
directly; no statement in the constructor locks `jsEngineMutex` (the
mutex is only fetched at line 87 to be handed to each
`JavascriptApi`). -/
def sourceCtorRuntimeSteps : List RuntimeStep :=
  [RuntimeStep.evaluateDocument]

/-- Modelled from the spec: a `JavascriptApi` scripted call
(javascript-api.cpp, not under src/) locks the mutex it was given
around its call into the shared runtime. -/
def javascriptApiRuntimeSteps : List RuntimeStep :=
  [RuntimeStep.lockJsEngineMutex, RuntimeStep.scriptedApiCall, RuntimeStep.unlockJsEngineMutex]

/-- A well-formed stored line: nonempty and free of line terminators.
Every line produced by `parseSites` has this shape, and a URL handed to
`addSite`/`removeSite` is assumed to have it. -/
abbrev wfLine (l : List Char) : Prop := l ≠ [] ∧ '\n' ∉ l ∧ '\r' ∉ l

theorem splitOn_ne_nil {α : Type} [DecidableEq α] (sep : α) (s : List α) : splitOn sep s ≠ [] := by
  induction s with
  | nil => simp [splitOn]
  | cons c cs ih =>
    by_cases hc : c = sep
    · simp [splitOn, hc]
    · simp only [splitOn, if_neg hc]
      cases hsp : splitOn sep cs with
      | nil => simp
      | cons p ps => simp

theorem mem_splitOn_sub {α : Type} [DecidableEq α] (sep : α) (s : List α) (p : List α) (hp : p ∈ splitOn sep s) :
    ∀ c ∈ p, c ∈ s := by
  induction s generalizing p with
  | nil =>
    intro c hc
    simp [splitOn] at hp
    subst hp
    simp at hc
  | cons a cs ih =>
    intro c hc
    by_cases ha : a = sep
    · simp only [splitOn, if_pos ha] at hp
      rcases List.mem_cons.mp hp with rfl | hp2
      · simp at hc
      · exact List.mem_cons_of_mem a (ih p hp2 c hc)
    · simp only [splitOn, if_neg ha] at hp
      cases hsp : splitOn sep cs with
      | nil => exact absurd hsp (splitOn_ne_nil sep cs)
      | cons q qs =>
        rw [hsp] at hp
        rcases List.mem_cons.mp hp with rfl | hp2
        · rcases List.mem_cons.mp hc with rfl | hc2
          · exact List.mem_cons_self _ _
          · have hq : q ∈ splitOn sep cs := by
              rw [hsp]; exact List.mem_cons_self q qs
            exact List.mem_cons_of_mem a (ih q hq c hc2)
        · have hps : p ∈ splitOn sep cs := by
            rw [hsp]; exact List.mem_cons_of_mem q hp2
          exact List.mem_cons_of_mem a (ih p hps c hc)

theorem sep_not_mem_splitOn {α : Type} [DecidableEq α] (sep : α) (s : List α) (p : List α)
    (hp : p ∈ splitOn sep s) : sep ∉ p := by
  induction s generalizing p with
  | nil =>
    simp [splitOn] at hp
    subst hp
    simp
  | cons a cs ih =>
    by_cases ha : a = sep
    · simp only [splitOn, if_pos ha] at hp
      rcases List.mem_cons.mp hp with rfl | hp2
      · simp
      · exact ih p hp2
    · simp only [splitOn, if_neg ha] at hp
      cases hsp : splitOn sep cs with
      | nil => exact absurd hsp (splitOn_ne_nil sep cs)
      | cons q qs =>
        rw [hsp] at hp
        rcases List.mem_cons.mp hp with rfl | hp2
        · intro hmem
          rcases List.mem_cons.mp hmem with h1 | h2
          · exact ha h1.symm
          · have hq : q ∈ splitOn sep cs := by
              rw [hsp]; exact List.mem_cons_self q qs
            exact ih q hq h2
        · have hps : p ∈ splitOn sep cs := by
            rw [hsp]; exact List.mem_cons_of_mem q hp2
          exact ih p hps

theorem splitOn_not_mem_eq {α : Type} [DecidableEq α] (sep : α) (l : List α) (h : sep ∉ l) :
    splitOn sep l = [l] := by
  induction l with
  | nil => rfl
  | cons c cs ih =>
    have hc : ¬ c = sep := fun e => h (e ▸ List.mem_cons_self c cs)
    have hcs : sep ∉ cs := fun m => h (List.mem_cons_of_mem c m)
    simp only [splitOn, if_neg hc, ih hcs]

theorem splitOn_append_sep {α : Type} [DecidableEq α] (sep : α) (l t : List α) (h : sep ∉ l) :
    splitOn sep (l ++ sep :: t) = l :: splitOn sep t := by
  induction l with
  | nil => simp [splitOn]
  | cons c cs ih =>
    have hc : ¬ c = sep := fun e => h (e ▸ List.mem_cons_self c cs)
    have hcs : sep ∉ cs := fun m => h (List.mem_cons_of_mem c m)
    rw [List.cons_append]
    simp only [splitOn, if_neg hc, ih hcs]

theorem joinWith_filter (sep : List Char) (p : Char → Bool) (L : List (List Char)) :
    (joinWith sep L).filter p = joinWith (sep.filter p) (L.map (fun l => l.filter p)) := by
  induction L with
  | nil => rfl
  | cons l ls ih =>
    cases ls with
    | nil => rfl
    | cons l2 ls2 =>
      simp only [joinWith, List.map_cons, List.filter_append, ih]

theorem splitOn_joinWith_nl (L : List (List Char)) (h : ∀ l ∈ L, l ≠ [] ∧ '\n' ∉ l) :
    (splitOn '\n' (joinWith ['\n'] L)).filter (fun l => !l.isEmpty) = L := by
  induction L with
  | nil => rfl
  | cons l ls ih =>
    have hl := h l (List.mem_cons_self l ls)
    cases ls with
    | nil =>
      simp only [joinWith]
      rw [splitOn_not_mem_eq '\n' l hl.2]
      simp [List.isEmpty_iff, hl.1]
    | cons l2 ls2 =>
      have hjoin : joinWith ['\n'] (l :: l2 :: ls2) = l ++ '\n' :: joinWith ['\n'] (l2 :: ls2) := by
        simp [joinWith]
      rw [hjoin, splitOn_append_sep '\n' l _ hl.2]
      rw [List.filter_cons]
      have hne : (!l.isEmpty) = true := by simp [List.isEmpty_iff, hl.1]
      rw [if_pos hne]
      rw [ih (fun x hx => h x (List.mem_cons_of_mem l hx))]

theorem parseSites_wf (raw : List Char) : ∀ l ∈ parseSites raw, wfLine l := by
  intro l hl
  unfold parseSites at hl
  obtain ⟨hmem, hne⟩ := List.mem_filter.mp hl
  refine ⟨by simpa [List.isEmpty_iff] using hne, sep_not_mem_splitOn '\n' _ l hmem, ?_⟩
  intro hr
  have hsub := mem_splitOn_sub '\n' _ l hmem '\r' hr
  rw [List.mem_filter] at hsub
  simp at hsub

theorem parseSites_joinCRLF (L : List (List Char)) (h : ∀ l ∈ L, wfLine l) :
    parseSites (joinWith ['\r', '\n'] L) = L := by
  unfold parseSites
  have h1 : (joinWith ['\r', '\n'] L).filter (fun c => c != '\r') = joinWith ['\n'] L := by
    rw [joinWith_filter]
    have hsep : (['\r', '\n'].filter (fun c => c != '\r')) = ['\n'] := by decide
    have hmap : L.map (fun l => l.filter (fun c => c != '\r')) = L := by
      have : ∀ l ∈ L, l.filter (fun c => c != '\r') = l := by
        intro l hl
        apply List.filter_eq_self.mpr
        intro c hc
        have hcr : c ≠ '\r' := fun e => (h l hl).2.2 (e ▸ hc)
        simpa using hcr
      calc L.map (fun l => l.filter (fun c => c != '\r')) = L.map id := List.map_congr_left this
        _ = L := List.map_id L
    rw [hsep, hmap]
  rw [h1]
  exact splitOn_joinWith_nl L (fun l hl => ⟨(h l hl).1, (h l hl).2.1⟩)

theorem mem_removeDupsAux (l seen : List (List Char)) (x : List Char) :
    x ∈ removeDupsAux l seen ↔ x ∈ l ∧ x ∉ seen := by
  induction l generalizing seen with
  | nil => simp [removeDupsAux]
  | cons a as ih =>
    by_cases ha : a ∈ seen
    · simp only [removeDupsAux, if_pos ha]
      rw [ih]
      constructor
      · rintro ⟨h1, h2⟩
        exact ⟨List.mem_cons_of_mem a h1, h2⟩
      · rintro ⟨h1, h2⟩
        rcases List.mem_cons.mp h1 with rfl | h3
        · exact absurd ha h2
        · exact ⟨h3, h2⟩
    · simp only [removeDupsAux, if_neg ha]
      constructor
      · intro hx
        rcases List.mem_cons.mp hx with rfl | h3
        · exact ⟨List.mem_cons_self _ _, ha⟩
        · obtain ⟨h4, h5⟩ := (ih (a :: seen)).mp h3
          exact ⟨List.mem_cons_of_mem a h4, fun hs => h5 (List.mem_cons_of_mem a hs)⟩
      · rintro ⟨h1, h2⟩
        rcases List.mem_cons.mp h1 with rfl | h3
        · exact List.mem_cons_self _ _
        · by_cases hxa : x = a
          · subst hxa
            exact List.mem_cons_self _ _
          · apply List.mem_cons_of_mem
            refine (ih (a :: seen)).mpr ⟨h3, fun hs => ?_⟩
            rcases List.mem_cons.mp hs with h6 | h7
            · exact hxa h6
            · exact h2 h7

theorem nodup_removeDupsAux (l seen : List (List Char)) : (removeDupsAux l seen).Nodup := by
  induction l generalizing seen with
  | nil => simp [removeDupsAux]
  | cons a as ih =>
    by_cases ha : a ∈ seen
    · simp only [removeDupsAux, if_pos ha]
      exact ih seen
    · simp only [removeDupsAux, if_neg ha]
      refine List.nodup_cons.mpr ⟨?_, ih (a :: seen)⟩
      intro hmem
      exact ((mem_removeDupsAux as (a :: seen) a).mp hmem).2 (List.mem_cons_self _ _)

theorem removeDupsAux_append_self (l seen : List (List Char)) (u : List Char)
    (hn : l.Nodup) (hd : ∀ x ∈ l, x ∉ seen) (hu : u ∈ l ∨ u ∈ seen) :
    removeDupsAux (l ++ [u]) seen = l := by
  induction l generalizing seen with
  | nil =>
    rcases hu with h | h
    · simp at h
    · simp [removeDupsAux, if_pos h]
  | cons a as ih =>
    have ha : a ∉ seen := hd a (List.mem_cons_self _ _)
    simp only [List.cons_append, removeDupsAux, if_neg ha]
    congr 1
    apply ih
    · exact (List.nodup_cons.mp hn).2
    · intro x hx hmem
      rcases List.mem_cons.mp hmem with rfl | h7
      · exact (List.nodup_cons.mp hn).1 hx
      · exact hd x (List.mem_cons_of_mem a hx) h7
    · rcases hu with h | h
      · rcases List.mem_cons.mp h with rfl | h8
        · exact Or.inr (List.mem_cons_self _ _)
        · exact Or.inl h8
      · exact Or.inr (List.mem_cons_of_mem a h)

theorem mem_addSiteLines (raw : List Nat) (url : List Char) : url ∈ addSiteLines raw url := by
  unfold addSiteLines sortSites
  have h1 : url ∈ removeDuplicates (parseSites (utf8Decode raw) ++ [url]) := by
    rw [removeDuplicates, mem_removeDupsAux]
    exact ⟨List.mem_append_right _ (List.mem_cons_self _ _), by simp⟩
  exact (List.perm_insertionSort _ _).mem_iff.mpr h1

theorem addSiteLines_nodup (raw : List Nat) (url : List Char) : (addSiteLines raw url).Nodup := by
  unfold addSiteLines sortSites removeDuplicates
  exact (List.perm_insertionSort _ _).nodup_iff.mpr (nodup_removeDupsAux _ _)

theorem addSiteLines_sorted (raw : List Nat) (url : List Char) :
    List.Sorted (fun a b : List Char => a ≤ b) (addSiteLines raw url) :=
  List.sorted_insertionSort _ _

theorem addSiteLines_wf (raw : List Nat) (url : List Char) (hu : wfLine url) :
    ∀ l ∈ addSiteLines raw url, wfLine l := by
  intro l hl
  unfold addSiteLines sortSites at hl
  have h1 : l ∈ removeDuplicates (parseSites (utf8Decode raw) ++ [url]) :=
    (List.perm_insertionSort _ _).mem_iff.mp hl
  rw [removeDuplicates, mem_removeDupsAux] at h1
  rcases List.mem_append.mp h1.1 with h3 | h3
  · exact parseSites_wf (utf8Decode raw) l h3
  · simp at h3
    subst h3
    exact hu

theorem removeSiteLines_wf (raw : List Nat) (url : List Char) :
    ∀ l ∈ removeSiteLines raw url, wfLine l := by
  intro l hl
  exact parseSites_wf (utf8Decode raw) l (List.mem_filter.mp hl).1

theorem utf8Run_some_ne_nil (s : Nat × Nat × Nat) (bs : List Nat) :
    utf8Run (some s) bs ≠ [] := by
  induction bs generalizing s with
  | nil => simp [utf8Run]
  | cons b bs ih =>
    obtain ⟨need, acc, mn⟩ := s
    simp only [utf8Run]
    by_cases hc : isCont b = true
    · rw [if_pos hc]
      by_cases hn : need ≤ 1
      · rw [if_pos hn]
        simp
      · rw [if_neg hn]
        exact ih _
    · rw [if_neg hc]
      simp

theorem utf8Run_none_ne_nil (b : Nat) (bs : List Nat) : utf8Run none (b :: bs) ≠ [] := by
  simp only [utf8Run, utf8Step1]
  by_cases h1 : b < 0x80
  · simp [h1]
  · rw [if_neg h1]
    by_cases h2 : (0xC0 ≤ b && b < 0xE0) = true
    · rw [if_pos h2]
      simpa using utf8Run_some_ne_nil _ bs
    · rw [if_neg h2]
      by_cases h3 : (0xE0 ≤ b && b < 0xF0) = true
      · rw [if_pos h3]
        simpa using utf8Run_some_ne_nil _ bs
      · rw [if_neg h3]
        by_cases h4 : (0xF0 ≤ b && b < 0xF8) = true
        · rw [if_pos h4]
          simpa using utf8Run_some_ne_nil _ bs
        · rw [if_neg h4]
          simp

theorem utf8Decode_eq_nil_iff (bs : List Nat) : utf8Decode bs = [] ↔ bs = [] := by
  cases bs with
  | nil => simp [utf8Decode, utf8Run]
  | cons b bs =>
    simp only [utf8Decode]
    exact iff_of_false (utf8Run_none_ne_nil b bs) (by simp)

theorem spaceByte_lt (b : Nat) (h : isAsciiSpaceByte b = true) : b < 128 := by
  simp [isAsciiSpaceByte] at h
  rcases h with h | h | h | h | h | h <;> omega

theorem spaceChar_ofNat_ascii : ∀ b < 128, isAsciiSpaceChar (Char.ofNat b) = isAsciiSpaceByte b := by
  decide

theorem toNat_ofNat_valid (n : Nat) (h : n.isValidChar) : (Char.ofNat n).toNat = n := by
  unfold Char.ofNat
  rw [dif_pos h]
  rfl

theorem not_space_of_valid_ge (cp : Nat) (h1 : 0x80 ≤ cp) (h2 : validCp cp = true) :
    isAsciiSpaceChar (Char.ofNat cp) = false := by
  have hv : cp.isValidChar := by
    simp [validCp] at h2
    unfold Nat.isValidChar
    omega
  unfold isAsciiSpaceChar
  rw [toNat_ofNat_valid cp hv]
  simp [isAsciiSpaceByte]
  omega

theorem utf8Run_some_head (bs : List Nat) : ∀ need acc mn c, 0x80 ≤ mn →
    (utf8Run (some (need, acc, mn)) bs).head? = some c → isAsciiSpaceChar c = false := by
  induction bs with
  | nil =>
    intro need acc mn c hmn h
    simp [utf8Run] at h
    subst h
    decide
  | cons b bs ih =>
    intro need acc mn c hmn h
    simp only [utf8Run] at h
    by_cases hc : isCont b = true
    · rw [if_pos hc] at h
      by_cases hn : need ≤ 1
      · rw [if_pos hn] at h
        simp at h
        by_cases hv : mn ≤ acc * 64 + (b - 0x80) ∧ validCp (acc * 64 + (b - 0x80)) = true
        · rw [if_pos hv] at h
          subst h
          exact not_space_of_valid_ge _ (le_trans hmn hv.1) hv.2
        · rw [if_neg hv] at h
          subst h
          decide
      · rw [if_neg hn] at h
        exact ih _ _ _ c hmn h
    · rw [if_neg hc] at h
      simp at h
      subst h
      decide

theorem utf8Decode_head_space (bs : List Nat) (c : Char)
    (h : (utf8Decode bs).head? = some c) (hs : isAsciiSpaceChar c = true) :
    ∃ b, bs.head? = some b ∧ isAsciiSpaceByte b = true := by
  cases bs with
  | nil => simp [utf8Decode, utf8Run] at h
  | cons b bs =>
    simp only [utf8Decode, utf8Run, utf8Step1] at h
    by_cases h1 : b < 0x80
    · rw [if_pos h1] at h
      simp at h
      refine ⟨b, rfl, ?_⟩
      rw [← spaceChar_ofNat_ascii b h1, h]
      exact hs
    · rw [if_neg h1] at h
      by_cases h2 : (0xC0 ≤ b && b < 0xE0) = true
      · rw [if_pos h2] at h
        simp only [List.nil_append] at h
        exact absurd hs (by simp [utf8Run_some_head bs _ _ _ c (by omega) h])
      · rw [if_neg h2] at h
        by_cases h3 : (0xE0 ≤ b && b < 0xF0) = true
        · rw [if_pos h3] at h
          simp only [List.nil_append] at h
          exact absurd hs (by simp [utf8Run_some_head bs _ _ _ c (by omega) h])
        · rw [if_neg h3] at h
          by_cases h4 : (0xF0 ≤ b && b < 0xF8) = true
          · rw [if_pos h4] at h
            simp only [List.nil_append] at h
            exact absurd hs (by simp [utf8Run_some_head bs _ _ _ c (by omega) h])
          · rw [if_neg h4] at h
            simp at h
            subst h
            exact absurd hs (by decide)

theorem head?_dropWhile_false {α : Type} (p : α → Bool) (l : List α) (x : α)
    (h : (l.dropWhile p).head? = some x) : p x = false := by
  induction l with
  | nil => simp at h
  | cons c cs ih =>
    by_cases hc : p c = true
    · rw [List.dropWhile_cons, if_pos hc] at h
      exact ih h
    · rw [List.dropWhile_cons, if_neg hc] at h
      have hcx : c = x := by simpa using h
      subst hcx
      exact Bool.eq_false_iff.mpr hc

theorem trimmedBy_head {α : Type} (p : α → Bool) (l : List α) (x : α)
    (h : (trimmedBy p l).head? = some x) : p x = false := by
  unfold trimmedBy at h
  have hsuf : (l.dropWhile p).reverse.dropWhile p <:+
      (l.dropWhile p).reverse := List.dropWhile_suffix p
  have hpre : ((l.dropWhile p).reverse.dropWhile p).reverse <+:
      l.dropWhile p := by
    have h2 := List.reverse_prefix.mpr hsuf
    rwa [List.reverse_reverse] at h2
  obtain ⟨t, ht⟩ := hpre
  have hmh : (l.dropWhile p).head? = some x := by
    rw [← ht]
    cases hwr : ((l.dropWhile p).reverse.dropWhile p).reverse with
    | nil => rw [hwr] at h; simp at h
    | cons y ys =>
      rw [hwr] at h
      simp_all
  exact head?_dropWhile_false p l x hmh

theorem trimmedBy_getLast {α : Type} (p : α → Bool) (l : List α) (x : α)
    (h : (trimmedBy p l).getLast? = some x) : p x = false := by
  unfold trimmedBy at h
  have h3 := List.head?_reverse ((l.dropWhile p).reverse.dropWhile p).reverse
  rw [List.reverse_reverse] at h3
  rw [← h3] at h
  exact head?_dropWhile_false p (l.dropWhile p).reverse x h

theorem getLast?_cons_some {α : Type} (a : α) (l : List α) (x : α)
    (h : l.getLast? = some x) : (a :: l).getLast? = some x := by
  cases l with
  | nil => simp at h
  | cons y ys =>
    rw [List.getLast?_cons_cons]
    exact h

theorem utf8Step1_none_head (b : Nat) (c : Char)
    (h : ((utf8Step1 b).2 = none ∧ (utf8Step1 b).1.getLast? = some c)
      ∨ (utf8Step1 b).2 = none ∧ (utf8Step1 b).1.head? = some c)
    (hs : isAsciiSpaceChar c = true) : isAsciiSpaceByte b = true := by
  unfold utf8Step1 at h
  by_cases h1 : b < 0x80
  · rw [if_pos h1] at h
    have hcb : Char.ofNat b = c := by
      rcases h with ⟨-, h2⟩ | ⟨-, h2⟩ <;> simpa using h2
    rw [← spaceChar_ofNat_ascii b h1, hcb]
    exact hs
  · rw [if_neg h1] at h
    by_cases h2 : (0xC0 ≤ b && b < 0xE0) = true
    · rw [if_pos h2] at h
      rcases h with ⟨h3, -⟩ | ⟨h3, -⟩ <;> simp at h3
    · rw [if_neg h2] at h
      by_cases h3 : (0xE0 ≤ b && b < 0xF0) = true
      · rw [if_pos h3] at h
        rcases h with ⟨h4, -⟩ | ⟨h4, -⟩ <;> simp at h4
      · rw [if_neg h3] at h
        by_cases h4 : (0xF0 ≤ b && b < 0xF8) = true
        · rw [if_pos h4] at h
          rcases h with ⟨h5, -⟩ | ⟨h5, -⟩ <;> simp at h5
        · rw [if_neg h4] at h
          have hcb : Char.ofNat 0xFFFD = c := by
            rcases h with ⟨-, h5⟩ | ⟨-, h5⟩ <;> simpa using h5
          rw [← hcb] at hs
          exact absurd hs (by decide)

theorem utf8Step1_min (b need acc mn : Nat)
    (h : (utf8Step1 b).2 = some (need, acc, mn)) : 0x80 ≤ mn := by
  unfold utf8Step1 at h
  by_cases h1 : b < 0x80
  · rw [if_pos h1] at h
    simp at h
  · rw [if_neg h1] at h
    by_cases h2 : (0xC0 ≤ b && b < 0xE0) = true
    · rw [if_pos h2] at h
      simp at h
      omega
    · rw [if_neg h2] at h
      by_cases h3 : (0xE0 ≤ b && b < 0xF0) = true
      · rw [if_pos h3] at h
        simp at h
        omega
      · rw [if_neg h3] at h
        by_cases h4 : (0xF0 ≤ b && b < 0xF8) = true
        · rw [if_pos h4] at h
          simp at h
          omega
        · rw [if_neg h4] at h
          simp at h

theorem getLast?_append_right {α : Type} (l1 l2 : List α) (h : l2 ≠ []) :
    (l1 ++ l2).getLast? = l2.getLast? := by
  rw [List.getLast?_append]
  cases hl : l2.getLast? with
  | none =>
    rw [List.getLast?_eq_none_iff] at hl
    exact absurd hl h
  | some y => rfl

theorem utf8Run_getLast_space (bs : List Nat) :
    ∀ st : Option (Nat × Nat × Nat),
    (∀ need acc mn, st = some (need, acc, mn) → 0x80 ≤ mn) →
    ∀ c, (utf8Run st bs).getLast? = some c → isAsciiSpaceChar c = true →
    ∃ b, bs.getLast? = some b ∧ isAsciiSpaceByte b = true := by
  induction bs with
  | nil =>
    intro st hst c h hs
    cases st with
    | none => simp [utf8Run] at h
    | some s =>
      simp [utf8Run] at h
      subst h
      exact absurd hs (by decide)
  | cons b bs ih =>
    intro st hst c h hs
    have hstep : ∀ cs0 : List Char, cs0 = [] ∨ cs0 = [Char.ofNat 0xFFFD] →
        (cs0 ++ ((utf8Step1 b).1 ++ utf8Run (utf8Step1 b).2 bs)).getLast? = some c →
        ∃ b2, (b :: bs).getLast? = some b2 ∧ isAsciiSpaceByte b2 = true := by
      intro cs0 hcs0 hh
      cases hrec : utf8Run (utf8Step1 b).2 bs with
      | nil =>
        have h2none : (utf8Step1 b).2 = none := by
          cases hstep2 : (utf8Step1 b).2 with
          | none => rfl
          | some s =>
            rw [hstep2] at hrec
            exact absurd hrec (utf8Run_some_ne_nil s bs)
        have hbs : bs = [] := by
          cases bs with
          | nil => rfl
          | cons b2 bs2 =>
            rw [h2none] at hrec
            exact absurd hrec (utf8Run_none_ne_nil b2 bs2)
        subst hbs
        rw [hrec, List.append_nil] at hh
        cases hp1 : (utf8Step1 b).1 with
        | nil =>
          rw [hp1, List.append_nil] at hh
          rcases hcs0 with rfl | rfl
          · simp at hh
          · have : Char.ofNat 0xFFFD = c := by simpa using hh
            rw [← this] at hs
            exact absurd hs (by decide)
        | cons y ys =>
          rw [getLast?_append_right cs0 _ (by rw [hp1]; simp)] at hh
          refine ⟨b, by simp, ?_⟩
          exact utf8Step1_none_head b c (Or.inl ⟨h2none, hh⟩) hs
      | cons x xs =>
        have hlast : (utf8Run (utf8Step1 b).2 bs).getLast? = some c := by
          rw [hrec]
          rw [hrec, getLast?_append_right cs0 _ (by simp),
            getLast?_append_right _ _ (by simp)] at hh
          exact hh
        have hstmin : ∀ need acc mn, (utf8Step1 b).2 = some (need, acc, mn) → 0x80 ≤ mn :=
          fun need acc mn hh2 => utf8Step1_min b need acc mn hh2
        obtain ⟨b2, hb1, hb2⟩ := ih (utf8Step1 b).2 hstmin c hlast hs
        exact ⟨b2, getLast?_cons_some b bs b2 hb1, hb2⟩
    cases st with
    | none =>
      simp only [utf8Run] at h
      exact hstep [] (Or.inl rfl) (by simpa using h)
    | some s =>
      obtain ⟨need, acc, mn⟩ := s
      have hmn : 0x80 ≤ mn := hst need acc mn rfl
      simp only [utf8Run] at h
      by_cases hc : isCont b = true
      · rw [if_pos hc] at h
        by_cases hn : need ≤ 1
        · rw [if_pos hn] at h
          cases hrec : utf8Run none bs with
          | nil =>
            have hbs : bs = [] := by
              cases bs with
              | nil => rfl
              | cons b2 bs2 => exact absurd hrec (utf8Run_none_ne_nil b2 bs2)
            subst hbs
            rw [hrec] at h
            simp at h
            by_cases hv : mn ≤ acc * 64 + (b - 0x80) ∧ validCp (acc * 64 + (b - 0x80)) = true
            · rw [if_pos hv] at h
              subst h
              exact absurd hs (by simp [not_space_of_valid_ge _ (le_trans hmn hv.1) hv.2])
            · rw [if_neg hv] at h
              subst h
              exact absurd hs (by decide)
          | cons x xs =>
            have hlast : (utf8Run none bs).getLast? = some c := by
              rw [hrec]
              rw [hrec, List.getLast?_cons_cons] at h
              exact h
            obtain ⟨b2, hb1, hb2⟩ := ih none (by intro _ _ _ hh; simp at hh) c hlast hs
            exact ⟨b2, getLast?_cons_some b bs b2 hb1, hb2⟩
        · rw [if_neg hn] at h
          obtain ⟨b2, hb1, hb2⟩ := ih (some (need - 1, acc * 64 + (b - 0x80), mn))
            (by intro n2 a2 m2 hh
                have : mn = m2 := by
                  have := congrArg (fun o => o.map (fun s : Nat × Nat × Nat => s.2.2)) hh
                  simpa using this
                omega) c h hs
          exact ⟨b2, getLast?_cons_some b bs b2 hb1, hb2⟩
      · rw [if_neg hc] at h
        exact hstep [Char.ofNat 0xFFFD] (Or.inr rfl) (by simpa using h)

theorem utf8Decode_getLast_space (bs : List Nat) (c : Char)
    (h : (utf8Decode bs).getLast? = some c) (hs : isAsciiSpaceChar c = true) :
    ∃ b, bs.getLast? = some b ∧ isAsciiSpaceByte b = true :=
  utf8Run_getLast_space bs none (by intro _ _ _ hh; simp at hh) c h hs

theorem readTrimmedLines_spec (content : List Nat) (line : List Char)
    (h : line ∈ readTrimmedLines content) :
    line ≠ [] ∧ (∀ c, line.head? = some c → isAsciiSpaceChar c = false) ∧
      (∀ c, line.getLast? = some c → isAsciiSpaceChar c = false) := by
  unfold readTrimmedLines at h
  obtain ⟨hmem, hne⟩ := List.mem_filter.mp h
  obtain ⟨m, hm, rfl⟩ := List.mem_map.mp hmem
  refine ⟨by simpa [List.isEmpty_iff] using hne, ?_, ?_⟩
  · intro c hc
    by_contra hcs
    rw [Bool.not_eq_false] at hcs
    obtain ⟨b, hb1, hb2⟩ := utf8Decode_head_space _ c hc hcs
    have hf := trimmedBy_head isAsciiSpaceByte m b ?_
    · rw [hf] at hb2
      simp at hb2
    · exact hb1
  · intro c hc
    by_contra hcs
    rw [Bool.not_eq_false] at hcs
    obtain ⟨b, hb1, hb2⟩ := utf8Decode_getLast_space _ c hc hcs
    have hf := trimmedBy_getLast isAsciiSpaceByte m b ?_
    · rw [hf] at hb2
      simp at hb2
    · exact hb1

theorem utf8Decode_ascii_cons (b : Nat) (bs : List Nat) (h : b < 128) :
    utf8Decode (b :: bs) = Char.ofNat b :: utf8Decode bs := by
  simp only [utf8Decode, utf8Run, utf8Step1]
  rw [if_pos h]
  simp

theorem utf8Decode_ascii_map (raw : List Nat) (h : asciiBytes raw) :
    utf8Decode raw = raw.map Char.ofNat := by
  induction raw with
  | nil => rfl
  | cons b bs ih =>
    rw [utf8Decode_ascii_cons b bs (h b (List.mem_cons_self _ _))]
    rw [ih (fun x hx => h x (List.mem_cons_of_mem b hx))]
    rfl

theorem ofNat_toNat_ascii : ∀ b < 128, (Char.ofNat b).toNat = b := by decide

theorem utf8Decode_ascii_line (raw : List Nat) (h : asciiBytes raw) :
    asciiLine (utf8Decode raw) := by
  rw [utf8Decode_ascii_map raw h]
  intro c hc
  obtain ⟨b, hb, rfl⟩ := List.mem_map.mp hc
  rw [ofNat_toNat_ascii b (h b hb)]
  exact h b hb

theorem latin1_ascii_map (l : List Char) (h : asciiLine l) :
    latin1Encode l = l.map Char.toNat := by
  unfold latin1Encode
  apply List.map_congr_left
  intro c hc
  rw [if_pos (by have := h c hc; omega)]

theorem asciiBytes_latin1 (l : List Char) (h : asciiLine l) :
    asciiBytes (latin1Encode l) := by
  rw [latin1_ascii_map l h]
  intro b hb
  obtain ⟨c, hc, rfl⟩ := List.mem_map.mp hb
  exact h c hc

theorem ascii_roundtrip (l : List Char) (h : asciiLine l) :
    utf8Decode (latin1Encode l) = l := by
  rw [latin1_ascii_map l h,
    utf8Decode_ascii_map _ (by
      intro b hb
      obtain ⟨c, hc, rfl⟩ := List.mem_map.mp hb
      exact h c hc)]
  rw [List.map_map]
  have heach : ∀ c ∈ l, (Char.ofNat ∘ Char.toNat) c = id c := fun c _ => Char.ofNat_toNat c
  rw [List.map_congr_left heach, List.map_id]

theorem mem_joinWith (sep : List Char) (L : List (List Char)) (c : Char)
    (h : c ∈ joinWith sep L) : c ∈ sep ∨ ∃ l ∈ L, c ∈ l := by
  induction L with
  | nil => simp [joinWith] at h
  | cons l ls ih =>
    cases ls with
    | nil =>
      right
      exact ⟨l, List.mem_cons_self _ _, by simpa [joinWith] using h⟩
    | cons l2 ls2 =>
      simp only [joinWith] at h
      rcases List.mem_append.mp h with h1 | h2
      · rcases List.mem_append.mp h1 with ha | hb
        · right
          exact ⟨l, List.mem_cons_self _ _, ha⟩
        · left
          exact hb
      · rcases ih h2 with ha2 | ⟨l3, h3, h4⟩
        · left
          exact ha2
        · right
          exact ⟨l3, List.mem_cons_of_mem l h3, h4⟩

theorem joinWith_crlf_ascii (L : List (List Char)) (h : ∀ l ∈ L, asciiLine l) :
    asciiLine (joinWith ['\r', '\n'] L) := by
  intro c hc
  rcases mem_joinWith _ _ c hc with h1 | ⟨l, hl, hcl⟩
  · simp at h1
    rcases h1 with rfl | rfl <;> decide
  · exact h l hl c hcl

theorem addSiteLines_ascii (raw : List Nat) (url : List Char) (hua : asciiLine url)
    (hra : asciiBytes raw) : ∀ l ∈ addSiteLines raw url, asciiLine l := by
  intro l hl
  unfold addSiteLines sortSites at hl
  have h1 := (List.perm_insertionSort _ _).mem_iff.mp hl
  rw [removeDuplicates, mem_removeDupsAux] at h1
  rcases List.mem_append.mp h1.1 with h3 | h3
  · intro c hc
    have hsub : c ∈ (utf8Decode raw).filter (fun c => c != '\r') := by
      unfold parseSites at h3
      exact mem_splitOn_sub '\n' _ l (List.mem_filter.mp h3).1 c hc
    exact utf8Decode_ascii_line raw hra c (List.mem_filter.mp hsub).1
  · simp at h3
    subst h3
    exact hua

theorem removeSiteLines_ascii (raw : List Nat) (url : List Char) (hra : asciiBytes raw) :
    ∀ l ∈ removeSiteLines raw url, asciiLine l := by
  intro l hl c hc
  have h3 := (List.mem_filter.mp hl).1
  have hsub : c ∈ (utf8Decode raw).filter (fun c => c != '\r') := by
    unfold parseSites at h3
    exact mem_splitOn_sub '\n' _ l (List.mem_filter.mp h3).1 c hc
  exact utf8Decode_ascii_line raw hra c (List.mem_filter.mp hsub).1

theorem parse_addSite_ascii (raw : List Nat) (url : List Char) (hu : wfLine url)
    (hua : asciiLine url) (hra : asciiBytes raw) :
    parseSites (utf8Decode (addSite raw url)) = addSiteLines raw url := by
  unfold addSite
  rw [ascii_roundtrip _ (joinWith_crlf_ascii _ (addSiteLines_ascii raw url hua hra))]
  exact parseSites_joinCRLF _ (addSiteLines_wf raw url hu)

theorem addSite_asciiBytes (raw : List Nat) (url : List Char) (hua : asciiLine url)
    (hra : asciiBytes raw) : asciiBytes (addSite raw url) :=
  asciiBytes_latin1 _ (joinWith_crlf_ascii _ (addSiteLines_ascii raw url hua hra))

theorem parse_removeSite_ascii (raw : List Nat) (url : List Char) (hra : asciiBytes raw) :
    parseSites (utf8Decode (removeSite raw url)) = removeSiteLines raw url := by
  unfold removeSite
  rw [ascii_roundtrip _ (joinWith_crlf_ascii _ (removeSiteLines_ascii raw url hra))]
  exact parseSites_joinCRLF _ (removeSiteLines_wf raw url)

theorem removeSite_asciiBytes (raw : List Nat) (url : List Char) (hra : asciiBytes raw) :
    asciiBytes (removeSite raw url) :=
  asciiBytes_latin1 _ (joinWith_crlf_ascii _ (removeSiteLines_ascii raw url hra))

theorem buildAuth_ne_none (auth : JSValue) : buildAuth auth ≠ none := by
  unfold buildAuth
  repeat' split
  all_goals simp

theorem lookupAuth_qmapInsert (m : List (String × Auth)) (k x : String) (v : Auth) :
    lookupAuth x (qmapInsert m k v) = if x = k then some v else lookupAuth x m := by
  induction m with
  | nil =>
    by_cases hxk : x = k
    · subst hxk
      simp [qmapInsert, lookupAuth]
    · simp [qmapInsert, lookupAuth, hxk, Ne.symm hxk]
  | cons p rest ih =>
    by_cases hpk : p.1 = k
    · simp only [qmapInsert, if_pos hpk]
      by_cases hxk : x = k
      · subst hxk
        simp [lookupAuth]
      · have hpx : ¬ p.1 = x := fun e => hxk (by rw [← e, hpk])
        simp [lookupAuth, Ne.symm hxk, hxk, hpx]
    · simp only [qmapInsert, if_neg hpk]
      by_cases hpx : p.1 = x
      · have hxk : ¬ x = k := fun e => hpk (by rw [hpx, e])
        simp [lookupAuth, hpx, hxk]
      · simp [lookupAuth, hpx, ih]

theorem range_map_getD (l : List JSValue) (f : JSValue → AuthField) (d : JSValue) :
    (List.range l.length).map (fun i => f (l.getD i d)) = l.map f := by
  apply List.ext_getElem
  · simp
  · intro i h1 h2
    simp only [List.getElem_map, List.getElem_range]
    have hi : i < l.length := by simpa using h2
    rw [List.getD_eq_getElem l d hi]

/-- C1: for every authentication-scheme node whose `type` is not one of
"oauth2", "oauth1", "http_basic", "get", "post" (a node with `type`
absent reads as the string "undefined" and is included), the
AuthStrategy Builder produces a `Url` variant, and the `AuthField` list
on the resulting Auth is built from the node's `fields` list in
document order and preserved in that order (it is exactly the
element-wise image of the `fields` array under the FieldSpec Builder);
when `fields` is absent the list is empty. -/
theorem buildAuth_unrecognized_type_url (auth : JSValue)
    (h2 : (auth.property "type").toString ≠ "oauth2")
    (h1 : (auth.property "type").toString ≠ "oauth1")
    (hb : (auth.property "type").toString ≠ "http_basic")
    (hg : (auth.property "type").toString ≠ "get")
    (hp : (auth.property "type").toString ≠ "post") :
    (∀ fs, auth.property "fields" = JSValue.arr fs → fs.length < 2 ^ 32 →
      buildAuth auth =
        some (Auth.url ((auth.property "type").toString) (fs.map buildAuthField) (maxPageOf auth))) ∧
    (auth.property "fields" = JSValue.undefined →
      buildAuth auth =
        some (Auth.url ((auth.property "type").toString) [] (maxPageOf auth))) := by
  have hbase : buildAuth auth =
      some (Auth.url ((auth.property "type").toString) (fieldsOf auth) (maxPageOf auth)) := by
    unfold buildAuth
    rw [if_neg h2, if_neg h1, if_neg hb, if_neg (not_or.mpr ⟨hg, hp⟩)]
  constructor
  · intro fs hfs hlen
    rw [hbase]
    have hfields : fieldsOf auth = fs.map buildAuthField := by
      unfold fieldsOf
      rw [hfs]
      have hlenp : (JSValue.arr fs).property "length" = JSValue.num fs.length := rfl
      rw [hlenp]
      have htu : (JSValue.num (fs.length : Int)).toUInt = fs.length := by
        simp only [JSValue.toUInt]
        omega
      rw [htu]
      simp only [JSValue.propertyIdx]
      exact range_map_getD fs buildAuthField JSValue.undefined
    rw [hfields]
  · intro hfs
    rw [hbase]
    have hfields : fieldsOf auth = [] := by
      unfold fieldsOf
      rw [hfs]
      rfl
    rw [hfields]

/-- C1 witness: concrete instances — a node with no `type` (so it reads
"undefined") and a two-element `fields` array builds a `Url` auth with
the two fields in document order; a node with `type` "other" and no
`fields` builds a `Url` auth with an empty field list. -/
theorem buildAuth_unrecognized_type_url_witness :
    buildAuth (JSValue.obj [("fields", JSValue.arr
        [JSValue.obj [("key", JSValue.str "u")],
         JSValue.obj [("key", JSValue.str "p"), ("type", JSValue.str "password")]])]) =
      some (Auth.url "undefined"
        [AuthField.textField "" "u" FieldType.Text "",
         AuthField.textField "" "p" FieldType.Password ""] 0) ∧
    buildAuth (JSValue.obj [("type", JSValue.str "other")]) =
      some (Auth.url "other" [] 0) := by
  constructor
  · exact (buildAuth_unrecognized_type_url
      (JSValue.obj [("fields", JSValue.arr
        [JSValue.obj [("key", JSValue.str "u")],
         JSValue.obj [("key", JSValue.str "p"), ("type", JSValue.str "password")]])])
      (by decide) (by decide) (by decide) (by decide) (by decide)).1
      [JSValue.obj [("key", JSValue.str "u")],
       JSValue.obj [("key", JSValue.str "p"), ("type", JSValue.str "password")]]
      rfl (by decide)
  · exact (buildAuth_unrecognized_type_url (JSValue.obj [("type", JSValue.str "other")])
      (by decide) (by decide) (by decide) (by decide) (by decide)).2 rfl

/-- C2: for every field description node with `type` reading "hash",
the built field is a `HashField`, its algorithm is SHA1 exactly when
the node's `hash` property reads "sha1" (string-exact,
case-sensitive), and MD5 in every other case, including when `hash` is
absent (`undefined`). -/
theorem buildAuthField_hash_algorithm (field : JSValue)
    (h : (field.property "type").toString = "hash") :
    (buildAuthField field).isHashField = true ∧
    ((buildAuthField field).algorithm? = some HashAlgorithm.Sha1 ↔
      (field.property "hash").toString = "sha1") ∧
    ((field.property "hash").toString ≠ "sha1" →
      (buildAuthField field).algorithm? = some HashAlgorithm.Md5) ∧
    ((field.property "hash").isUndefined = true →
      (buildAuthField field).algorithm? = some HashAlgorithm.Md5) := by
  have hb : buildAuthField field =
      AuthField.hashField
        (if !(field.property "key").isUndefined then (field.property "key").toString else "")
        (if (field.property "hash").toString = "sha1" then HashAlgorithm.Sha1 else HashAlgorithm.Md5)
        ((field.property "salt").toString) := by
    unfold buildAuthField
    rw [if_pos h]
  have hundefinedStr : (field.property "hash").isUndefined = true →
      (field.property "hash").toString = "undefined" := by
    intro hu
    cases hfp : field.property "hash" <;> rw [hfp] at hu <;> simp [JSValue.isUndefined] at hu
    rfl
  refine ⟨by rw [hb]; rfl, ?_, ?_, ?_⟩
  · by_cases hs : (field.property "hash").toString = "sha1" <;>
      simp [hb, AuthField.algorithm?, hs]
  · intro hns
    simp [hb, AuthField.algorithm?, hns]
  · intro hu
    have hstr := hundefinedStr hu
    simp [hb, AuthField.algorithm?, hstr]

/-- C2 witness: a hash field node with `hash` exactly "sha1" gets SHA1;
one with `hash` absent gets MD5; one with `hash` reading "Sha1"
(case-sensitive miss) gets MD5. -/
theorem buildAuthField_hash_algorithm_witness :
    (buildAuthField (JSValue.obj [("type", JSValue.str "hash"), ("hash", JSValue.str "sha1")])).algorithm? =
      some HashAlgorithm.Sha1 ∧
    (buildAuthField (JSValue.obj [("type", JSValue.str "hash")])).algorithm? =
      some HashAlgorithm.Md5 ∧
    (buildAuthField (JSValue.obj [("type", JSValue.str "hash"), ("hash", JSValue.str "Sha1")])).algorithm? =
      some HashAlgorithm.Md5 := by
  refine ⟨?_, ?_, ?_⟩
  · exact (buildAuthField_hash_algorithm
      (JSValue.obj [("type", JSValue.str "hash"), ("hash", JSValue.str "sha1")])
      (by decide)).2.1.mpr (by decide)
  · exact (buildAuthField_hash_algorithm
      (JSValue.obj [("type", JSValue.str "hash")]) (by decide)).2.2.2 (by decide)
  · exact (buildAuthField_hash_algorithm
      (JSValue.obj [("type", JSValue.str "hash"), ("hash", JSValue.str "Sha1")])
      (by decide)).2.2.1 (by decide)

/-- C3 counterexample: for a `const` field node whose `value` property
is absent, the code calls `QJSValue::toString` on an undefined value,
which yields the string "undefined", not the empty string the claim
asserts. -/
theorem buildAuthField_const_absent_value_cex :
    buildAuthField (JSValue.obj [("type", JSValue.str "const")]) =
      AuthField.constField "" "undefined" ∧
    buildAuthField (JSValue.obj [("type", JSValue.str "const")]) ≠
      AuthField.constField "" "" := by decide

/-- C3 amended: for every field description node with `type` reading
"const" whose `value` property is absent from the document, the
resulting `ConstField` value is the string "undefined" (the ECMAScript
rendering of the undefined property), not the empty string. -/
theorem buildAuthField_const_absent_value (field : JSValue)
    (ht : (field.property "type").toString = "const")
    (hv : field.property "value" = JSValue.undefined) :
    buildAuthField field =
      AuthField.constField
        (if !(field.property "key").isUndefined then (field.property "key").toString else "")
        "undefined" := by
  unfold buildAuthField
  rw [ht]
  rw [if_neg (by decide : ¬ ("const" : String) = "hash"), if_pos rfl, hv]
  rfl

/-- C3 amended witness: concrete `const` node with a key and no
`value`. -/
theorem buildAuthField_const_absent_value_witness :
    buildAuthField (JSValue.obj [("type", JSValue.str "const"), ("key", JSValue.str "k")]) =
      AuthField.constField "k" "undefined" :=
  buildAuthField_const_absent_value
    (JSValue.obj [("type", JSValue.str "const"), ("key", JSValue.str "k")]) rfl rfl

/-- C4 counterexample: the scheme-id map is built with `QMap::insert`,
which replaces the value already stored under the key: processing two
entries with the same id "a" leaves the map holding the build of the
second node, so the first successful build did not win. -/
theorem insertAuths_first_wins_cex :
    lookupAuth "a" (insertAuths
      [("a", JSValue.obj [("type", JSValue.str "oauth2")]),
       ("a", JSValue.obj [("type", JSValue.str "oauth1")])] []) =
      buildAuth (JSValue.obj [("type", JSValue.str "oauth1")]) ∧
    buildAuth (JSValue.obj [("type", JSValue.str "oauth2")]) ≠
      buildAuth (JSValue.obj [("type", JSValue.str "oauth1")]) := by
  constructor
  · rfl
  · intro h
    rw [show buildAuth (JSValue.obj [("type", JSValue.str "oauth2")]) =
        some (Auth.oauth2 "oauth2" (JSValue.obj [("type", JSValue.str "oauth2")])) from rfl,
      show buildAuth (JSValue.obj [("type", JSValue.str "oauth1")]) =
        some (Auth.oauth1 "oauth1" (JSValue.obj [("type", JSValue.str "oauth1")])) from rfl] at h
    exact Auth.noConfusion (Option.some.inj h)

/-- C4 amended: the scheme-id → Auth mapping is built last-write-wins —
after the insertion loop, the Auth stored under a key is the build of
the last entry carrying that key (`QMap::insert` replaces an existing
entry); a null build would be skipped without touching the map, but the
builder in fact never returns null, so every entry is inserted.  Since
scheme ids iterated from a JS object are unique, no replacement occurs
in practice. -/
theorem insertAuths_last_write_wins (entries : List (String × JSValue))
    (m : List (String × Auth)) (k : String) :
    (lookupAuth k (insertAuths entries m) =
      match entries.reverse.find? (fun e => e.1 = k) with
      | some e => buildAuth e.2
      | none => lookupAuth k m) ∧
    (∀ node : JSValue, buildAuth node ≠ none) := by
  refine ⟨?_, buildAuth_ne_none⟩
  induction entries generalizing m with
  | nil => rfl
  | cons e rest ih =>
    obtain ⟨id, n⟩ := e
    cases hb : buildAuth n with
    | none => exact absurd hb (buildAuth_ne_none n)
    | some a =>
      simp only [insertAuths, hb, List.reverse_cons, List.find?_append]
      rw [ih (qmapInsert m id a)]
      cases hf : rest.reverse.find? (fun e => e.1 = k) with
      | some e2 => rfl
      | none =>
        have hor : ∀ o : Option (String × JSValue), (Option.none).or o = o := fun o => rfl
        rw [hor]
        rw [lookupAuth_qmapInsert]
        by_cases hid : id = k
        · subst hid
          simp [List.find?, hb]
        · have hki : ¬ k = id := fun e => hid e.symm
          simp [List.find?, hid, hki]

/-- C5: if evaluation of the plugin's declarative source text reports
an error, the `Source` is still constructed (`Source.construct` is
total and this theorem exhibits its result): the error is recorded in
the log together with the line number read from the error value, and
the resulting name is empty and the `apis` and `auths` collections are
empty. -/
theorem construct_eval_error (diskName : String) (o : EvalOutcome)
    (sitesContent supportedContent : Option (List Nat)) (h : o.isError = true) :
    (Source.construct diskName (some o) sitesContent supportedContent).name = "" ∧
    (Source.construct diskName (some o) sitesContent supportedContent).apis = [] ∧
    (Source.construct diskName (some o) sitesContent supportedContent).auths = [] ∧
    LogEntry.uncaughtException ((o.value.property "lineNumber").toInt) (o.value.toString) ∈
      (Source.construct diskName (some o) sitesContent supportedContent).log := by
  refine ⟨?_, ?_, ?_, ?_⟩ <;> simp [Source.construct, h]

/-- C5 witness: a concrete error outcome whose value carries line
number 7; the constructed state has empty name, apis and auths, and the
log records the exception at line 7. -/
theorem construct_eval_error_witness :
    (Source.construct "plugin" (EvalOutcome.mk (JSValue.obj [("lineNumber", JSValue.num 7)]) true)
      none none).name = "" ∧
    (Source.construct "plugin" (EvalOutcome.mk (JSValue.obj [("lineNumber", JSValue.num 7)]) true)
      none none).apis = [] ∧
    (Source.construct "plugin" (EvalOutcome.mk (JSValue.obj [("lineNumber", JSValue.num 7)]) true)
      none none).auths = [] ∧
    LogEntry.uncaughtException 7 "[object Object]" ∈
      (Source.construct "plugin" (EvalOutcome.mk (JSValue.obj [("lineNumber", JSValue.num 7)]) true)
        none none).log :=
  construct_eval_error "plugin"
    (EvalOutcome.mk (JSValue.obj [("lineNumber", JSValue.num 7)]) true) none none rfl

/-- C6 counterexample: the write path encodes with `toLatin1` (line
229) while the read path decodes the file bytes as UTF-8, so
persistence is lossy outside ASCII and `addSite` is not idempotent for
every URL.  Adding "é" to an empty file writes the Latin-1 byte 0xE9;
the second add re-reads it as U+FFFD, treats it as a different entry,
and writes a different file whose parsed list gained a "?" line, is no
longer sorted (U+FFFD sorts after "?"), and — for the URL "€", written
as "?" — the double add leaves two identical "?" lines on disk. -/
theorem addSite_idempotent_sorted_cex :
    addSite (addSite [] ("é".data)) ("é".data) ≠ addSite [] ("é".data) ∧
    parseSites (utf8Decode (addSite [] ("é".data))) = [[Char.ofNat 0xFFFD]] ∧
    parseSites (utf8Decode (addSite (addSite [] ("é".data)) ("é".data))) =
      [[Char.ofNat 0xFFFD], ['?']] ∧
    ¬ ([Char.ofNat 0xFFFD] : List Char) ≤ ['?'] ∧
    parseSites (utf8Decode (addSite (addSite [] ("€".data)) ("€".data))) = [['?'], ['?']] := by
  refine ⟨by decide, by decide, by decide, by decide, by decide⟩

/-- C6 amended: for a URL that is a nonempty single-line ASCII string
and a sites file whose bytes are ASCII — the domain on which the
Latin-1 write and the UTF-8 read round-trip losslessly — `addSite` is
idempotent (applying it twice writes the same bytes, hence the same
endpoint list, as applying it once), and after any successful add the
persisted list is lexicographically sorted with no duplicate entries
and contains the URL.  Outside ASCII the encoding mismatch breaks all
three properties (see the counterexample). -/
theorem addSite_idempotent_sorted (raw : List Nat) (url : List Char) (hu : wfLine url)
    (hua : asciiLine url) (hra : asciiBytes raw) :
    addSite (addSite raw url) url = addSite raw url ∧
    List.Sorted (fun a b : List Char => a ≤ b) (parseSites (utf8Decode (addSite raw url))) ∧
    (parseSites (utf8Decode (addSite raw url))).Nodup ∧
    url ∈ parseSites (utf8Decode (addSite raw url)) := by
  have hp := parse_addSite_ascii raw url hu hua hra
  refine ⟨?_, by rw [hp]; exact addSiteLines_sorted raw url,
    by rw [hp]; exact addSiteLines_nodup raw url,
    by rw [hp]; exact mem_addSiteLines raw url⟩
  show latin1Encode (joinWith ['\r', '\n'] (addSiteLines (addSite raw url) url)) = addSite raw url
  have hlines : addSiteLines (addSite raw url) url = addSiteLines raw url := by
    unfold addSiteLines
    rw [hp]
    rw [removeDuplicates, removeDupsAux_append_self (addSiteLines raw url) [] url
      (addSiteLines_nodup raw url) (by simp) (Or.inl (mem_addSiteLines raw url))]
    exact (addSiteLines_sorted raw url).insertionSort_eq
  rw [hlines]
  rfl

/-- C6 amended witness: adding "c" to an ASCII file holding "b" and
"a" twice writes the same bytes as adding it once, and the list
contains "c"; the hypotheses hold by computation. -/
theorem addSite_idempotent_sorted_witness :
    addSite (addSite ("b\r\na".data.map Char.toNat) ("c".data)) ("c".data) =
      addSite ("b\r\na".data.map Char.toNat) ("c".data) ∧
    ("c".data) ∈ parseSites (utf8Decode (addSite ("b\r\na".data.map Char.toNat) ("c".data))) := by
  have h := addSite_idempotent_sorted ("b\r\na".data.map Char.toNat) ("c".data)
    (by decide) (by decide) (by decide)
  exact ⟨h.1, h.2.2.2⟩

/-- C7 counterexample: the same Latin-1-write/UTF-8-read asymmetry
(line 247) makes `removeSite` of an absent URL rewrite non-ASCII
content lossily — a file holding "é" (UTF-8 bytes C3 A9) is
re-serialized to the bare byte 0xE9, which re-parses as U+FFFD, so the
endpoint list changes — and remove-then-add of "€" leaves "?" on the
list, not "€". -/
theorem removeSite_noop_restore_cex :
    ("z".data) ∉ parseSites (utf8Decode [0xC3, 0xA9]) ∧
    parseSites (utf8Decode (removeSite [0xC3, 0xA9] ("z".data))) ≠
      parseSites (utf8Decode [0xC3, 0xA9]) ∧
    ("€".data) ∉ parseSites (utf8Decode (addSite (removeSite [] ("€".data)) ("€".data))) := by
  refine ⟨by decide, by decide, by decide⟩

/-- C7 amended: for an ASCII sites file and a nonempty single-line
ASCII URL — where persistence round-trips losslessly — `removeSite` of
a URL not present leaves the endpoint list unchanged, and `removeSite`
followed by `addSite` restores the URL to the list.  Outside ASCII the
encoding mismatch breaks both (see the counterexample). -/
theorem removeSite_noop_restore (raw : List Nat) (url : List Char) (hu : wfLine url)
    (hua : asciiLine url) (hra : asciiBytes raw) :
    (url ∉ parseSites (utf8Decode raw) →
      parseSites (utf8Decode (removeSite raw url)) = parseSites (utf8Decode raw)) ∧
    url ∈ parseSites (utf8Decode (addSite (removeSite raw url) url)) := by
  constructor
  · intro hnot
    rw [parse_removeSite_ascii raw url hra]
    unfold removeSiteLines
    apply List.filter_eq_self.mpr
    intro a ha
    have : a ≠ url := fun e => hnot (e ▸ ha)
    simpa using this
  · rw [parse_addSite_ascii (removeSite raw url) url hu hua (removeSite_asciiBytes raw url hra)]
    exact mem_addSiteLines _ url

/-- C7 amended witness: removing "z" (absent) from an ASCII file
holding "b" and "a" leaves the parsed list unchanged, and
remove-then-add of "z" puts "z" in the list. -/
theorem removeSite_noop_restore_witness :
    parseSites (utf8Decode (removeSite ("b\r\na".data.map Char.toNat) ("z".data))) =
      parseSites (utf8Decode ("b\r\na".data.map Char.toNat)) ∧
    ("z".data) ∈ parseSites (utf8Decode
      (addSite (removeSite ("b\r\na".data.map Char.toNat) ("z".data)) ("z".data))) := by
  have h := removeSite_noop_restore ("b\r\na".data.map Char.toNat) ("z".data)
    (by decide) (by decide) (by decide)
  exact ⟨h.1 (by decide), h.2⟩

/-- C8 counterexample: the document evaluation performed during Source
construction (source.cpp lines 74-75) is a call into the shared script
runtime made without holding `jsEngineMutex` — the constructor's
runtime trace is not serialized behind the lock, refuting the claim
that every call into the runtime happens under it. -/
theorem ctor_evaluate_unlocked_cex : ¬ serialized sourceCtorRuntimeSteps := by
  unfold serialized
  decide

/-- C8 amended: the process-wide `jsEngineMutex` serializes the
scripted API calls (it is handed to each `JavascriptApi`, whose call
trace holds the lock around its runtime call), but the document
evaluation during Source construction is performed without holding the
lock: the constructor trace consists of the evaluate call alone,
executed with the lock not held. -/
theorem runtime_lock_serialization :
    serialized javascriptApiRuntimeSteps ∧
    ¬ serialized sourceCtorRuntimeSteps ∧
    sourceCtorRuntimeSteps.getD 0 RuntimeStep.lockJsEngineMutex = RuntimeStep.evaluateDocument ∧
    lockedAt sourceCtorRuntimeSteps 0 = false := by
  refine ⟨?_, ?_, rfl, by decide⟩
  · unfold serialized
    decide
  · unfold serialized
    decide

/-- C9 counterexample: the loops at lines 178 and 195 call
`QByteArray::trimmed` on the raw `readLine()` bytes, which strips
ASCII whitespace only — a sites.txt line starting with a no-break
space (UTF-8 bytes C2 A0) is stored with its leading U+00A0 intact,
which is whitespace by `QChar::isSpace`, so a stored endpoint string
does carry surrounding whitespace under the claim's reading. -/
theorem construct_lines_trimmed_cex :
    [Char.ofNat 0xA0, 'a'] ∈
      (Source.construct "d" none (some [0xC2, 0xA0, 0x61]) (some [])).sites ∧
    isQtSpace (Char.ofNat 0xA0) = true := by
  refine ⟨by decide, by decide⟩

/-- C9 amended: every line stored from the endpoint list file
(sites.txt) and the supported-endpoints file (supported.txt) at Source
construction is nonempty and carries no leading or trailing ASCII
whitespace — the set `QByteArray::trimmed` strips, which includes
every line terminator — because each raw byte line is trimmed before
the UTF-8 conversion and lines empty after trimming are skipped.
Non-ASCII Unicode whitespace such as U+00A0 is not trimmed (see the
counterexample). -/
theorem construct_lines_trimmed (diskName : String) (modelJs : Option EvalOutcome)
    (sitesContent supportedContent : List Nat) (line : List Char)
    (h : line ∈ (Source.construct diskName modelJs (some sitesContent) (some supportedContent)).sites ∨
      line ∈ (Source.construct diskName modelJs (some sitesContent) (some supportedContent)).supportedSites) :
    line ≠ [] ∧ (∀ c, line.head? = some c → isAsciiSpaceChar c = false) ∧
      (∀ c, line.getLast? = some c → isAsciiSpaceChar c = false) := by
  have hs : (Source.construct diskName modelJs (some sitesContent) (some supportedContent)).sites =
      readTrimmedLines sitesContent := rfl
  have hsup : (Source.construct diskName modelJs (some sitesContent) (some supportedContent)).supportedSites =
      readTrimmedLines supportedContent := rfl
  rw [hs, hsup] at h
  rcases h with h | h
  · exact readTrimmedLines_spec sitesContent line h
  · exact readTrimmedLines_spec supportedContent line h

/-- C9 amended witness: with sites.txt holding the bytes of " a \n"
and supported.txt holding the bytes of "\tb\r\n", the stored lines are
exactly "a" and "b", and the theorem applies to the stored site line
"a". -/
theorem construct_lines_trimmed_witness :
    (Source.construct "d" none (some [32, 97, 32, 10]) (some [9, 98, 13, 10])).sites = [['a']] ∧
    (Source.construct "d" none (some [32, 97, 32, 10]) (some [9, 98, 13, 10])).supportedSites = [['b']] ∧
    ((['a'] : List Char) ≠ [] ∧ (∀ c, (['a'] : List Char).head? = some c → isAsciiSpaceChar c = false) ∧
      (∀ c, (['a'] : List Char).getLast? = some c → isAsciiSpaceChar c = false)) := by
  refine ⟨by decide, by decide, ?_⟩
  exact construct_lines_trimmed "d" none [32, 97, 32, 10] [9, 98, 13, 10] ['a']
    (Or.inl (by decide))

/-- C10: `getApi` returns the first Api in the list (in construction
order) whose name equals the argument, and null (`none`) exactly when
no Api in the list has that name. -/
theorem getApi_first_match (apis : List Api) (name : String) :
    (getApi apis name = none ↔ ∀ a ∈ apis, a.name ≠ name) ∧
    (∀ pre a post, apis = pre ++ a :: post → a.name = name →
      (∀ b ∈ pre, b.name ≠ name) → getApi apis name = some a) := by
  induction apis with
  | nil =>
    constructor
    · simp [getApi]
    · intro pre a post h
      exact absurd h (by cases pre <;> simp)
  | cons x rest ih =>
    constructor
    · constructor
      · intro h0 a ha
        by_cases hx : x.name = name
        · rw [getApi, if_pos hx] at h0
          exact absurd h0 (by simp)
        · rw [getApi, if_neg hx] at h0
          rcases List.mem_cons.mp ha with rfl | ha2
          · exact hx
          · exact ih.1.mp h0 a ha2
      · intro hall
        have hx : ¬ x.name = name := hall x (List.mem_cons_self _ _)
        rw [getApi, if_neg hx]
        exact ih.1.mpr (fun a ha => hall a (List.mem_cons_of_mem x ha))
    · intro pre a post heq ha hpre
      cases pre with
      | nil =>
        rw [List.nil_append] at heq
        injection heq with he1 he2
        subst he1
        rw [getApi, if_pos ha]
      | cons b pre2 =>
        rw [List.cons_append] at heq
        injection heq with he1 he2
        subst he1
        have hx : ¬ x.name = name := hpre x (List.mem_cons_self _ _)
        rw [getApi, if_neg hx]
        exact ih.2 pre2 a post he2 ha (fun c hc => hpre c (List.mem_cons_of_mem x hc))

/-- C10 witness: in a list with two entries named "x" and "y" (then
"y" again), lookup of "y" returns the first "y" entry, and lookup of
"z" returns null. -/
theorem getApi_first_match_witness :
    getApi [Api.mk "x", Api.mk "y", Api.mk "y"] "y" = some (Api.mk "y") ∧
    getApi [Api.mk "x", Api.mk "y", Api.mk "y"] "z" = none := by
  constructor
  · exact (getApi_first_match [Api.mk "x", Api.mk "y", Api.mk "y"] "y").2
      [Api.mk "x"] (Api.mk "y") [Api.mk "y"] rfl rfl (by decide)
  · exact (getApi_first_match [Api.mk "x", Api.mk "y", Api.mk "y"] "z").1.mpr (by decide)

/-- C4 amended witness: a concrete one-entry insertion evaluated
through the last-write-wins characterization. -/
theorem insertAuths_last_write_wins_witness :
    lookupAuth "b" (insertAuths [("b", JSValue.obj [("type", JSValue.str "http_basic")])] []) =
      some (Auth.httpBasic "http_basic" 0 "undefined") :=
  (insertAuths_last_write_wins [("b", JSValue.obj [("type", JSValue.str "http_basic")])] [] "b").1

/-- C8 amended witness: the scripted API call (step 1 of the
JavascriptApi trace) runs with the lock held, while the constructor's
evaluate call (step 0 of its trace) runs with the lock not held. -/
theorem runtime_lock_serialization_witness :
    lockedAt javascriptApiRuntimeSteps 1 = true ∧
    lockedAt sourceCtorRuntimeSteps 0 = false :=
  ⟨by decide, runtime_lock_serialization.2.2.2⟩
